import Mathlib

/-!
Shallow embedding of `src/engine/src/rhs_types/regex/imp_pool.rs`: a
process-wide deduplicating pool of compiled byte-oriented regexes.

The Rust code wraps `Arc<regex::bytes::Regex>` in a newtype `Regex`, keeps a
`lazy_static` `Mutex<HashSet<Regex>>` pool, compiles with
`RegexBuilder::new(s).unicode(false).build()`, deduplicates via
`pool.get_or_insert(regex).clone()`, and reclaims entries in `Drop` using the
strong-count-2 / weak-count-0 check with a transient dummy `Weak` taken before
`pool.remove(&self)` to distinguish the re-entrant drop of the pool's own
handle.

Machine state is modelled explicitly: the heap of `Arc` allocations (pattern
text, compiled matcher, strong count, weak count), the pool as a list of heap
ids, the mutex as a `locked` flag (an acquisition attempt while `locked` is a
deadlock, modelled as `none`), and a counter of successful compilations.
-/

namespace ImpPool

/-! ### The compiled matcher backend

The actual matcher is the external `regex` crate (not code of this
repository), built with `.unicode(false)`.  It is modelled from the spec:
byte-oriented (non-Unicode-aware) matching where character classes and
literals operate on raw bytes.  The modelled pattern subset covers literal
characters, balanced `(`/`)` groups, a leading `^` anchor, and `\xHH` byte
escapes; every other metacharacter is outside the subset and rejected.
-/

/-- Value of one hex digit character, or `none`. -/
def hexVal (c : Char) : Option Nat :=
  if '0' ≤ c ∧ c ≤ '9' then some (c.toNat - '0'.toNat)
  else if 'a' ≤ c ∧ c ≤ 'f' then some (c.toNat - 'a'.toNat + 10)
  else if 'A' ≤ c ∧ c ≤ 'F' then some (c.toNat - 'A'.toNat + 10)
  else none

/-- Characters that are regex metacharacters (not plain literals) in the
modelled subset. -/
def isLit (c : Char) : Bool :=
  decide (c.toNat ≤ 255) &&
    !(['^', '$', '*', '+', '?', '(', ')', '[', ']', '|', '.', '\\'].contains c)

/-- Modelled from the spec: compile the pattern body to a sequence of byte
atoms, tracking the open-parenthesis depth; unbalanced parentheses or
unsupported constructs fail (e.g. the spec's invalid pattern `a(b`). -/
def compileAtoms : List Char → Nat → Option (List Nat)
  | [], 0 => some []
  | [], _ + 1 => none
  | '(' :: r, d => compileAtoms r (d + 1)
  | ')' :: _, 0 => none
  | ')' :: r, d + 1 => compileAtoms r d
  | '\\' :: 'x' :: h :: l :: r, d =>
    match hexVal h, hexVal l with
    | some hv, some lv => (compileAtoms r d).map (fun rest => (16 * hv + lv) :: rest)
    | _, _ => none
  | '\\' :: _ :: _, _ => none
  | c :: r, d => if isLit c then (compileAtoms r d).map (fun rest => c.toNat :: rest) else none

/-- An immutable compiled matcher: an optional start anchor plus a byte
sequence to locate in the input. -/
structure Matcher where
  anchored : Bool
  atoms : List Nat
deriving DecidableEq, Repr

/-- Modelled from the spec: `RegexBuilder::new(s).unicode(false).build()` —
compile pattern text to a byte-oriented matcher, `none` on invalid syntax. -/
def buildRegex : List Char → Option Matcher
  | '^' :: r => (compileAtoms r 0).map (fun as => ⟨true, as⟩)
  | s => (compileAtoms s 0).map (fun as => ⟨false, as⟩)

/-- Does `needle` occur as a contiguous sub-sequence of the input? -/
def containsSub (needle : List Nat) : List Nat → Bool
  | [] => needle.isEmpty
  | b :: t => needle.isPrefixOf (b :: t) || containsSub needle t

/-- Modelled from the spec: `regex::bytes::Regex::is_match` for the modelled
subset — anchored patterns match a prefix, unanchored ones match anywhere. -/
def matcherMatch (m : Matcher) (input : List Nat) : Bool :=
  if m.anchored then m.atoms.isPrefixOf input else containsSub m.atoms input

/-! ### Machine state -/

/-- One `Arc` allocation: the original pattern text (what
`regex::bytes::Regex::as_str` returns), the compiled matcher, and the `Arc`
strong and weak counts. -/
structure ArcState where
  pattern : String
  matcher : Matcher
  strong : Nat
  weak : Nat
deriving DecidableEq, Repr

/-- The pool machine state: the heap of `Arc` allocations indexed by id
(`none` = destroyed), `REGEX_POOL`'s contents as a list of heap ids, the
mutex flag, and a counter of successful compilations. -/
structure PoolState where
  heap : List (Option ArcState)
  pool : List Nat
  locked : Bool
  compiles : Nat
deriving DecidableEq, Repr

/-- The initial state: empty heap, empty pool, mutex free. -/
def initPool : PoolState := ⟨[], [], false, 0⟩

/-- Dereference a heap id. -/
def getArc (st : PoolState) (h : Nat) : Option ArcState :=
  (st.heap.get? h).join

/-- Overwrite a heap cell. -/
def setArc (st : PoolState) (h : Nat) (a : Option ArcState) : PoolState :=
  { st with heap := st.heap.set h a }

/-- The pattern text stored in the `Arc` behind a handle. -/
def patternOf (st : PoolState) (h : Nat) : Option String :=
  (getArc st h).map (fun a => a.pattern)

/-- Modelled from the spec: equality and hashing of pool entries
(`HashSet<Regex>` requires `Hash`/`Eq` impls that are not in the given
source) are by pattern text alone, never by address. -/
def poolFind (st : PoolState) (p : String) : Option Nat :=
  st.pool.find? (fun j => patternOf st j == some p)

/-- Drop one strong reference: decrement the count, destroying the
allocation when it reaches zero. -/
def arcDec (st : PoolState) (h : Nat) : PoolState :=
  match getArc st h with
  | none => st
  | some a =>
    if a.strong ≤ 1 then setArc st h none
    else setArc st h (some { a with strong := a.strong - 1 })

/-- Cloning a handle (`Arc::clone`): increment the strong count. -/
def strongInc (st : PoolState) (h : Nat) : PoolState :=
  match getArc st h with
  | none => st
  | some a => setArc st h (some { a with strong := a.strong + 1 })

/-- Drop a `Weak`: decrement the weak count. -/
def weakDec (st : PoolState) (h : Nat) : PoolState :=
  match getArc st h with
  | none => st
  | some a => setArc st h (some { a with weak := a.weak - 1 })

/-! ### `impl Drop for Regex`

Embeds the drop glue including the `Arc` field drop that follows the
user-written `drop` body.  If `strong == 2 && weak == 0`, a dummy `Weak` is
taken, the mutex is acquired (deadlock — `none` — if already held), the
matching pool entry is removed by pattern-text equality, and the removed
entry is itself dropped re-entrantly (the recursive call, bounded by fuel);
then the guard is released, the dummy `Weak` dropped, and finally the
handle's own strong reference is dropped.  Otherwise only the strong
reference is dropped. -/
def dropFuel : Nat → PoolState → Nat → Option PoolState
  | 0, _, _ => none
  | fuel + 1, st, h =>
    match getArc st h with
    | none => none
    | some a =>
      if a.strong == 2 && a.weak == 0 then
        let st1 := setArc st h (some { a with weak := a.weak + 1 })
        if st1.locked then none
        else
          let st2 := { st1 with locked := true }
          let removed :=
            match poolFind st2 a.pattern with
            | some j => dropFuel fuel { st2 with pool := st2.pool.erase j } j
            | none => some st2
          removed.map (fun st4 =>
            let st5 := { st4 with locked := false }
            let st6 := weakDec st5 h
            arcDec st6 h)
      else
        some (arcDec st h)

/-- Dropping a `Regex` handle.  Fuel 2 covers the one level of re-entrance
the protocol produces (the pool's own handle observes the dummy `Weak` and
takes the plain branch). -/
def dropHandle (st : PoolState) (h : Nat) : Option PoolState :=
  dropFuel 2 st h

/-- The compile error returned by `from_str`, carrying the underlying
syntax diagnostic. -/
structure CompileError where
  diag : String
deriving DecidableEq, Repr

/-- The embedding of `Regex::from_str`: compile the pattern (unconditionally, before any pool
interaction; on syntax error return `Err` with the state untouched), wrap it
in a fresh `Arc` (strong 1, weak 0), lock `REGEX_POOL`, `get_or_insert` the
fresh handle — on a hit the moved-in duplicate is dropped inside
`get_or_insert` and the stored entry is cloned; on a miss the fresh handle is
inserted and cloned — then release the guard.  `none` models a deadlocked
mutex acquisition. -/
def fromStr (st : PoolState) (s : String) : Option (Except CompileError Nat × PoolState) :=
  match buildRegex s.toList with
  | none => some (Except.error ⟨s⟩, st)
  | some m =>
    let fresh := st.heap.length
    let st1 : PoolState :=
      { st with heap := st.heap ++ [some ⟨s, m, 1, 0⟩], compiles := st.compiles + 1 }
    if st1.locked then none
    else
      let st2 := { st1 with locked := true }
      match poolFind st2 s with
      | some j =>
        (dropFuel 2 st2 fresh).map (fun st3 =>
          let st4 := strongInc st3 j
          (Except.ok j, { st4 with locked := false }))
      | none =>
        let st3 := { st2 with pool := st2.pool ++ [fresh] }
        let st4 := strongInc st3 fresh
        some (Except.ok fresh, { st4 with locked := false })

/-- The embedding of `Regex::as_str`: the original pattern text stored in the `Arc`. -/
def asStr (st : PoolState) (h : Nat) : Option String :=
  patternOf st h

/-- The embedding of `Regex::is_match` on a byte sequence. -/
def isMatch (st : PoolState) (h : Nat) (input : List Nat) : Bool :=
  match getArc st h with
  | none => false
  | some a => matcherMatch a.matcher input

/-! ### Client worlds

A `World` pairs the pool state with the multiset of live external handles,
and `step` runs one client operation: `parse`, `clone`, or `drop`. -/

structure World where
  st : PoolState
  hs : List Nat
deriving DecidableEq, Repr

def initWorld : World := ⟨initPool, []⟩

inductive Op where
  | parse (s : String)
  | clone (h : Nat)
  | drop (h : Nat)
deriving DecidableEq, Repr

/-- One client operation on the world; `none` models a deadlock. -/
def step (w : World) : Op → Option World
  | Op.parse s =>
    (fromStr w.st s).map (fun r =>
      match r with
      | (Except.ok h, st') => ⟨st', w.hs ++ [h]⟩
      | (Except.error _, st') => ⟨st', w.hs⟩)
  | Op.clone h =>
    if h ∈ w.hs then some ⟨strongInc w.st h, w.hs ++ [h]⟩ else some w
  | Op.drop h =>
    if h ∈ w.hs then (dropFuel 2 w.st h).map (fun st' => ⟨st', w.hs.erase h⟩)
    else some w

/-- Well-formedness invariant of reachable worlds: mutex free; pool ids
distinct; every pool entry is a live `Arc` with weak count 0, strong count
`1 +` the number of external handles to it, and a matcher that is the
compilation of its stored pattern; pool entries have pairwise distinct
patterns; every external handle's `Arc` is a pool entry; and every heap cell
outside the pool is destroyed. -/
def WF (w : World) : Prop :=
  w.st.locked = false ∧
  w.st.pool.Nodup ∧
  (∀ j ∈ w.st.pool, ∃ a, getArc w.st j = some a ∧ a.weak = 0 ∧
    a.strong = 1 + w.hs.count j ∧ buildRegex a.pattern.toList = some a.matcher) ∧
  (∀ j1 ∈ w.st.pool, ∀ j2 ∈ w.st.pool, patternOf w.st j1 = patternOf w.st j2 → j1 = j2) ∧
  (∀ h ∈ w.hs, h ∈ w.st.pool) ∧
  (∀ j, j < w.st.heap.length → j ∉ w.st.pool → getArc w.st j = none)

instance (w : World) : Decidable (WF w) := by
  unfold WF
  infer_instance

/-- Run a list of client operations in sequence (an arbitrary serialization
of concurrently issued operations); `none` models a deadlock. -/
def runOps : World → List Op → Option World
  | w, [] => some w
  | w, op :: ops => (step w op).bind (fun w' => runOps w' ops)

/-! ### Heap access lemmas -/

theorem getArc_mk (heap pool lk c) (h : Nat) :
    getArc ⟨heap, pool, lk, c⟩ h = (heap.get? h).join := rfl

theorem getArc_lt_length {st : PoolState} {h : Nat} {a : ArcState}
    (hg : getArc st h = some a) : h < st.heap.length := by
  by_contra hlt
  rw [getArc, List.get?_len_le (Nat.le_of_not_lt hlt)] at hg
  simp [Option.join] at hg

theorem getArc_ge_length {st : PoolState} {h : Nat}
    (hge : st.heap.length ≤ h) : getArc st h = none := by
  rw [getArc, List.get?_len_le hge]
  rfl

theorem getArc_setArc_self {st : PoolState} {h : Nat} (a : Option ArcState)
    (hlt : h < st.heap.length) : getArc (setArc st h a) h = a := by
  show ((st.heap.set h a).get? h).join = a
  rw [List.get?_set_eq_of_lt a hlt]
  rfl

theorem getArc_setArc_ne {st : PoolState} {h h' : Nat} (a : Option ArcState)
    (hne : h ≠ h') : getArc (setArc st h a) h' = getArc st h' := by
  show ((st.heap.set h a).get? h').join = (st.heap.get? h').join
  rw [List.get?_set_ne a _ hne]

theorem setArc_pool (st : PoolState) (h : Nat) (a : Option ArcState) :
    (setArc st h a).pool = st.pool := rfl

theorem setArc_locked (st : PoolState) (h : Nat) (a : Option ArcState) :
    (setArc st h a).locked = st.locked := rfl

theorem setArc_compiles (st : PoolState) (h : Nat) (a : Option ArcState) :
    (setArc st h a).compiles = st.compiles := rfl

theorem setArc_heap_length (st : PoolState) (h : Nat) (a : Option ArcState) :
    (setArc st h a).heap.length = st.heap.length := by
  simp [setArc]

/-! ### Derived-operation equations -/

theorem arcDec_none {st : PoolState} {k : Nat} (h : getArc st k = none) :
    arcDec st k = st := by
  simp [arcDec, h]

theorem arcDec_dec {st : PoolState} {k : Nat} {a : ArcState}
    (h : getArc st k = some a) (h2 : ¬ a.strong ≤ 1) :
    arcDec st k = setArc st k (some { a with strong := a.strong - 1 }) := by
  simp [arcDec, h, h2]

theorem arcDec_destroy {st : PoolState} {k : Nat} {a : ArcState}
    (h : getArc st k = some a) (h2 : a.strong ≤ 1) :
    arcDec st k = setArc st k none := by
  simp [arcDec, h, h2]

theorem arcDec_pool (st : PoolState) (k : Nat) : (arcDec st k).pool = st.pool := by
  unfold arcDec
  cases getArc st k with
  | none => rfl
  | some a => by_cases h : a.strong ≤ 1 <;> simp [h, setArc_pool]

theorem arcDec_locked (st : PoolState) (k : Nat) : (arcDec st k).locked = st.locked := by
  unfold arcDec
  cases getArc st k with
  | none => rfl
  | some a => by_cases h : a.strong ≤ 1 <;> simp [h, setArc_locked]

theorem arcDec_compiles (st : PoolState) (k : Nat) : (arcDec st k).compiles = st.compiles := by
  unfold arcDec
  cases getArc st k with
  | none => rfl
  | some a => by_cases h : a.strong ≤ 1 <;> simp [h, setArc_compiles]

theorem arcDec_getArc_ne {st : PoolState} {k k' : Nat} (hne : k ≠ k') :
    getArc (arcDec st k) k' = getArc st k' := by
  unfold arcDec
  cases getArc st k with
  | none => rfl
  | some a => by_cases h : a.strong ≤ 1 <;> simp [h, getArc_setArc_ne _ hne]

theorem strongInc_some {st : PoolState} {k : Nat} {a : ArcState}
    (h : getArc st k = some a) :
    strongInc st k = setArc st k (some { a with strong := a.strong + 1 }) := by
  simp [strongInc, h]

theorem strongInc_pool (st : PoolState) (k : Nat) : (strongInc st k).pool = st.pool := by
  unfold strongInc
  cases getArc st k with
  | none => rfl
  | some a => simp [setArc_pool]

theorem strongInc_getArc_ne {st : PoolState} {k k' : Nat} (hne : k ≠ k') :
    getArc (strongInc st k) k' = getArc st k' := by
  unfold strongInc
  cases getArc st k with
  | none => rfl
  | some a => simp [getArc_setArc_ne _ hne]

theorem weakDec_some {st : PoolState} {k : Nat} {a : ArcState}
    (h : getArc st k = some a) :
    weakDec st k = setArc st k (some { a with weak := a.weak - 1 }) := by
  simp [weakDec, h]

/-! ### `find?` helper -/

theorem find?_eq_some_of_unique {α : Type} {p : α → Bool} {l : List α} {x : α}
    (hmem : x ∈ l) (hx : p x = true) (huniq : ∀ y ∈ l, p y = true → y = x) :
    l.find? p = some x := by
  induction l with
  | nil => cases hmem
  | cons b t ih =>
    by_cases hb : p b = true
    · have hbx : b = x := huniq b (List.mem_cons_self b t) hb
      subst hbx
      simp [List.find?, hb]
    · have hbx : b ≠ x := fun e => hb (e ▸ hx)
      have hmem' : x ∈ t := by
        cases hmem with
        | head => exact absurd rfl hbx
        | tail _ hm => exact hm
      have := ih hmem' (fun y hy hp => huniq y (List.mem_cons_of_mem b hy) hp)
      simpa [List.find?, hb] using this



theorem getArc_locked_update (st : PoolState) (b : Bool) (k : Nat) :
    getArc { st with locked := b } k = getArc st k := rfl

theorem getArc_pool_update (st : PoolState) (l : List Nat) (k : Nat) :
    getArc { st with pool := l } k = getArc st k := rfl

theorem patternOf_congr {st st' : PoolState} {k : Nat}
    (h : getArc st' k = getArc st k) : patternOf st' k = patternOf st k := by
  simp [patternOf, h]

theorem find?_congr_members {α : Type} {p q : α → Bool} {l : List α}
    (h : ∀ x ∈ l, p x = q x) : l.find? p = l.find? q := by
  induction l with
  | nil => rfl
  | cons b t ih =>
    have hb := h b (List.mem_cons_self b t)
    have ht := ih (fun x hx => h x (List.mem_cons_of_mem b hx))
    simp [List.find?_cons, hb, ht]

theorem poolFind_congr {st st' : PoolState} {P : String}
    (hpat : ∀ j ∈ st.pool, patternOf st' j = patternOf st j)
    (hpool : st'.pool = st.pool) :
    poolFind st' P = poolFind st P := by
  unfold poolFind
  rw [hpool]
  exact find?_congr_members (fun j hj => by rw [hpat j hj])

theorem poolFind_some {st : PoolState} {P : String} {j : Nat}
    (h : poolFind st P = some j) : j ∈ st.pool ∧ patternOf st j = some P := by
  refine ⟨List.mem_of_find?_eq_some h, ?_⟩
  have := List.find?_some h
  simpa using this

theorem poolFind_eq_some_of {st : PoolState} {P : String} {j : Nat}
    (hmem : j ∈ st.pool) (hp : patternOf st j = some P)
    (huniq : ∀ j2 ∈ st.pool, patternOf st j2 = some P → j2 = j) :
    poolFind st P = some j := by
  apply find?_eq_some_of_unique hmem (by simp [hp])
  intro y hy hpy
  exact huniq y hy (by simpa using hpy)

theorem poolFind_none_iff {st : PoolState} {P : String} :
    poolFind st P = none ↔ ∀ j ∈ st.pool, patternOf st j ≠ some P := by
  simp [poolFind, List.find?_eq_none]

theorem dropFuel_plain {st : PoolState} {k : Nat} {a : ArcState} {n : Nat}
    (hA : getArc st k = some a)
    (hC : (a.strong == 2 && a.weak == 0) = false) :
    dropFuel (n + 1) st k = some (arcDec st k) := by
  simp [dropFuel, hA, hC]

/-- The full last-external-owner release chain, in closed form: the entry is
removed from the pool, the allocation is destroyed, the mutex ends free. -/
theorem drop_last_spec {w : World} {h : Nat}
    (hwf : WF w) (hmem : h ∈ w.hs) (hcount : w.hs.count h = 1) :
    dropFuel 2 w.st h =
      some ⟨w.st.heap.set h none, w.st.pool.erase h, false, w.st.compiles⟩ := by
  obtain ⟨hlk, hnd, hpool, huniq, hhs, hout⟩ := hwf
  have hpm : h ∈ w.st.pool := hhs h hmem
  obtain ⟨a, hga, hw0, hs0, hbld⟩ := hpool h hpm
  have hs2 : a.strong = 2 := by rw [hs0, hcount]
  have hlt : h < w.st.heap.length := getArc_lt_length hga
  obtain ⟨pat, mm, sss, www⟩ := a
  simp only at hs2 hw0
  subst hs2
  subst hw0
  have hpath : patternOf w.st h = some pat := by simp [patternOf, hga]
  have hfind : poolFind ⟨(setArc w.st h (some ⟨pat, mm, 2, 0 + 1⟩)).heap,
      (setArc w.st h (some ⟨pat, mm, 2, 0 + 1⟩)).pool, true,
      (setArc w.st h (some ⟨pat, mm, 2, 0 + 1⟩)).compiles⟩ pat = some h := by
    have hpe : (⟨(setArc w.st h (some ⟨pat, mm, 2, 0 + 1⟩)).heap,
        (setArc w.st h (some ⟨pat, mm, 2, 0 + 1⟩)).pool, true,
        (setArc w.st h (some ⟨pat, mm, 2, 0 + 1⟩)).compiles⟩ : PoolState).pool = w.st.pool := by
      simp [setArc]
    have hpat_eq : ∀ j ∈ w.st.pool,
        patternOf ⟨(setArc w.st h (some ⟨pat, mm, 2, 0 + 1⟩)).heap,
          (setArc w.st h (some ⟨pat, mm, 2, 0 + 1⟩)).pool, true,
          (setArc w.st h (some ⟨pat, mm, 2, 0 + 1⟩)).compiles⟩ j = patternOf w.st j := by
      intro j hj
      by_cases hjh : j = h
      · subst hjh
        have hg : getArc (⟨(setArc w.st j (some ⟨pat, mm, 2, 0 + 1⟩)).heap,
            (setArc w.st j (some ⟨pat, mm, 2, 0 + 1⟩)).pool, true,
            (setArc w.st j (some ⟨pat, mm, 2, 0 + 1⟩)).compiles⟩ : PoolState) j =
            some ⟨pat, mm, 2, 0 + 1⟩ := getArc_setArc_self _ hlt
        rw [patternOf, hg, hpath]
        rfl
      · apply patternOf_congr
        show getArc (setArc w.st h (some ⟨pat, mm, 2, 0 + 1⟩)) j = getArc w.st j
        rw [getArc_setArc_ne _ (fun e => hjh e.symm)]
    rw [poolFind_congr hpat_eq hpe]
    exact poolFind_eq_some_of hpm hpath
      (fun j2 hj2 hpj2 => huniq j2 hj2 h hpm (by rw [hpj2, hpath]))
  rw [show (2 : Nat) = 0 + 1 + 1 from rfl, dropFuel]
  rw [hga]
  simp only [beq_self_eq_true, Bool.and_self, if_true, Bool.and_true, reduceIte]
  simp only [setArc_locked, hlk, Bool.false_eq_true, if_false]
  rw [hfind]
  have h21 : ((w.st.heap.set h (some ⟨pat, mm, 2, 0 + 1⟩)).get? h) = some (some ⟨pat, mm, 2, 0 + 1⟩) :=
    List.get?_set_eq_of_lt _ hlt
  simp [dropFuel, arcDec, weakDec, setArc, getArc, h21, List.set_set, List.get?_set_eq_of_lt,
    List.length_set, hlt]



/-- A non-last release (other external owners remain): only the strong count
is decremented; no pool or lock interaction. -/
theorem drop_nonlast_spec {w : World} {h : Nat}
    (hwf : WF w) (hmem : h ∈ w.hs) (hcount : 2 ≤ w.hs.count h) :
    ∃ a, getArc w.st h = some a ∧ 2 < a.strong ∧
      dropFuel 2 w.st h = some (setArc w.st h (some { a with strong := a.strong - 1 })) := by
  obtain ⟨hlk, hnd, hpool, huniq, hhs, hout⟩ := hwf
  obtain ⟨a, hga, hw0, hs0, hbld⟩ := hpool h (hhs h hmem)
  have h2 : 2 < a.strong := by omega
  have hC : (a.strong == 2 && a.weak == 0) = false := by
    have : a.strong ≠ 2 := by omega
    simp [this]
  refine ⟨a, hga, h2, ?_⟩
  have hp := dropFuel_plain (n := 1) hga hC
  rw [show (1 : Nat) + 1 = 2 from rfl] at hp
  rw [hp, arcDec_dec hga (by omega)]

/-- Invalid pattern: `build()?` fails before any pool interaction and the
state is returned untouched. -/
theorem fromStr_error {st : PoolState} {s : String}
    (h : buildRegex s.toList = none) :
    fromStr st s = some (Except.error ⟨s⟩, st) := by
  have h2 : buildRegex s.data = none := h
  simp [fromStr, h2]

/-- Pool members are live heap cells, hence in range. -/
theorem pool_mem_lt {w : World} (hwf : WF w) {j : Nat} (hj : j ∈ w.st.pool) :
    j < w.st.heap.length := by
  obtain ⟨-, -, hpool, -, -, -⟩ := hwf
  obtain ⟨a, hga, -, -, -⟩ := hpool j hj
  exact getArc_lt_length hga

/-- Miss path of `from_str` in closed form: the fresh arc is inserted and
cloned (strong count 2), the pool gains the fresh id, the mutex ends free. -/
theorem fromStr_miss_spec {w : World} {s : String} {m : Matcher}
    (hwf : WF w) (hb : buildRegex s.toList = some m) (hnf : poolFind w.st s = none) :
    fromStr w.st s = some (Except.ok w.st.heap.length,
      ⟨w.st.heap ++ [some ⟨s, m, 2, 0⟩], w.st.pool ++ [w.st.heap.length], false,
       w.st.compiles + 1⟩) := by
  have hlk := hwf.1
  have hb2 : buildRegex s.data = some m := hb
  have hpat_eq : ∀ j ∈ w.st.pool,
      patternOf ⟨w.st.heap ++ [some ⟨s, m, 1, 0⟩], w.st.pool, true, w.st.compiles + 1⟩ j
        = patternOf w.st j := by
    intro j hj
    apply patternOf_congr
    show ((w.st.heap ++ [some (⟨s, m, 1, 0⟩ : ArcState)]).get? j).join = getArc w.st j
    rw [List.get?_append (pool_mem_lt hwf hj)]
    rfl
  have hf2 : poolFind ⟨w.st.heap ++ [some ⟨s, m, 1, 0⟩], w.st.pool, true,
      w.st.compiles + 1⟩ s = none := by
    exact (poolFind_congr hpat_eq rfl).trans hnf
  have hga_fresh : getArc ⟨w.st.heap ++ [some ⟨s, m, 1, 0⟩],
      w.st.pool ++ [w.st.heap.length], true, w.st.compiles + 1⟩ w.st.heap.length
      = some ⟨s, m, 1, 0⟩ := by
    show ((w.st.heap ++ [some (⟨s, m, 1, 0⟩ : ArcState)]).get? w.st.heap.length).join = _
    rw [List.get?_concat_length]
    rfl
  have hset : (w.st.heap ++ [some (⟨s, m, 1, 0⟩ : ArcState)]).set w.st.heap.length
      (some ⟨s, m, 1 + 1, 0⟩) = w.st.heap ++ [some ⟨s, m, 2, 0⟩] := by
    rw [List.set_append_right _ _ (Nat.le_refl _), Nat.sub_self]
    rfl
  simp only [fromStr, hb, hb2, hlk, Bool.false_eq_true, if_false, hf2]
  rw [strongInc_some hga_fresh]
  simp [setArc, hset]

/-- Hit path of `from_str` in closed form: the freshly compiled duplicate is
dropped inside `get_or_insert` (its heap slot ends `none`), the stored entry
is cloned, the pool is unchanged, the mutex ends free. -/
theorem fromStr_hit_spec {w : World} {s : String} {m : Matcher} {j : Nat}
    (hwf : WF w) (hb : buildRegex s.toList = some m) (hf : poolFind w.st s = some j) :
    ∃ aj, getArc w.st j = some aj ∧
      fromStr w.st s = some (Except.ok j,
        ⟨(w.st.heap ++ [none]).set j (some { aj with strong := aj.strong + 1 }),
         w.st.pool, false, w.st.compiles + 1⟩) := by
  have hlk := hwf.1
  have hb2 : buildRegex s.data = some m := hb
  obtain ⟨hjmem, hjpat⟩ := poolFind_some hf
  obtain ⟨aj, hgaj, hw0, hs0, hbld⟩ := hwf.2.2.1 j hjmem
  have hjlt := getArc_lt_length hgaj
  have hjfresh : j ≠ w.st.heap.length := Nat.ne_of_lt hjlt
  have hpat_eq : ∀ k ∈ w.st.pool,
      patternOf ⟨w.st.heap ++ [some ⟨s, m, 1, 0⟩], w.st.pool, true, w.st.compiles + 1⟩ k
        = patternOf w.st k := by
    intro k hk
    apply patternOf_congr
    show ((w.st.heap ++ [some (⟨s, m, 1, 0⟩ : ArcState)]).get? k).join = getArc w.st k
    rw [List.get?_append (pool_mem_lt hwf hk)]
    rfl
  have hf2 : poolFind ⟨w.st.heap ++ [some ⟨s, m, 1, 0⟩], w.st.pool, true,
      w.st.compiles + 1⟩ s = some j := by
    exact (poolFind_congr hpat_eq rfl).trans hf
  have hga_fresh : getArc ⟨w.st.heap ++ [some ⟨s, m, 1, 0⟩], w.st.pool, true,
      w.st.compiles + 1⟩ w.st.heap.length = some ⟨s, m, 1, 0⟩ := by
    show ((w.st.heap ++ [some (⟨s, m, 1, 0⟩ : ArcState)]).get? w.st.heap.length).join = _
    rw [List.get?_concat_length]
    rfl
  have hdrop := dropFuel_plain (n := 1) hga_fresh (by simp)
  rw [show (1 : Nat) + 1 = 2 from rfl] at hdrop
  have harc : arcDec ⟨w.st.heap ++ [some ⟨s, m, 1, 0⟩], w.st.pool, true,
      w.st.compiles + 1⟩ w.st.heap.length
      = setArc ⟨w.st.heap ++ [some ⟨s, m, 1, 0⟩], w.st.pool, true,
        w.st.compiles + 1⟩ w.st.heap.length none :=
    arcDec_destroy hga_fresh (by simp)
  have hsetfresh : (w.st.heap ++ [some (⟨s, m, 1, 0⟩ : ArcState)]).set w.st.heap.length none
      = w.st.heap ++ [(none : Option ArcState)] := by
    rw [List.set_append_right _ _ (Nat.le_refl _), Nat.sub_self]
    rfl
  have hga_j3 : getArc (setArc ⟨w.st.heap ++ [some ⟨s, m, 1, 0⟩], w.st.pool, true,
      w.st.compiles + 1⟩ w.st.heap.length none) j = some aj := by
    rw [getArc_setArc_ne _ (fun e => hjfresh e.symm)]
    show ((w.st.heap ++ [some (⟨s, m, 1, 0⟩ : ArcState)]).get? j).join = some aj
    rw [List.get?_append hjlt]
    exact hgaj
  refine ⟨aj, hgaj, ?_⟩
  simp only [fromStr, hb, hb2, hlk, Bool.false_eq_true, if_false, hf2, hdrop, harc,
    Option.map_some, Option.map_some']
  rw [strongInc_some hga_j3]
  simp [setArc, hsetfresh]



theorem getArc_append {st : PoolState} {l2 : List (Option ArcState)}
    {pl : List Nat} {lk : Bool} {c : Nat} {k : Nat} (hk : k < st.heap.length) :
    getArc ⟨st.heap ++ l2, pl, lk, c⟩ k = getArc st k := by
  show ((st.heap ++ l2).get? k).join = _
  rw [List.get?_append hk]
  rfl

theorem getArc_concat_self {st : PoolState} {v : Option ArcState}
    {pl : List Nat} {lk : Bool} {c : Nat} :
    getArc ⟨st.heap ++ [v], pl, lk, c⟩ st.heap.length = v := by
  show ((st.heap ++ [v]).get? st.heap.length).join = v
  rw [List.get?_concat_length]
  rfl

/-- Well-formedness of the closed-form post-state of a registry miss. -/
theorem wf_miss {w : World} {s : String} {m : Matcher}
    (hwf : WF w) (hb : buildRegex s.toList = some m) (hnf : poolFind w.st s = none) :
    WF ⟨⟨w.st.heap ++ [some ⟨s, m, 2, 0⟩], w.st.pool ++ [w.st.heap.length], false,
        w.st.compiles + 1⟩, w.hs ++ [w.st.heap.length]⟩ := by
  obtain ⟨hlk, hnd, hpool, huniq, hhs, hout⟩ := hwf
  have hLpool : w.st.heap.length ∉ w.st.pool := by
    intro hc
    exact absurd (pool_mem_lt ⟨hlk, hnd, hpool, huniq, hhs, hout⟩ hc) (lt_irrefl _)
  have hLhs : w.st.heap.length ∉ w.hs := fun hc => hLpool (hhs _ hc)
  have hgnew : ∀ k ∈ w.st.pool,
      getArc ⟨w.st.heap ++ [some ⟨s, m, 2, 0⟩], w.st.pool ++ [w.st.heap.length], false,
        w.st.compiles + 1⟩ k = getArc w.st k := by
    intro k hk
    exact getArc_append (pool_mem_lt ⟨hlk, hnd, hpool, huniq, hhs, hout⟩ hk)
  refine ⟨rfl, ?_, ?_, ?_, ?_, ?_⟩
  · rw [List.nodup_append]
    exact ⟨hnd, List.nodup_singleton _, by
      intro x hx hy
      rw [List.mem_singleton] at hy
      exact hLpool (hy ▸ hx)⟩
  · intro j hj
    rcases List.mem_append.mp hj with hj | hj
    · obtain ⟨a, hga, hwk, hst, hbl⟩ := hpool j hj
      have hjne : j ≠ w.st.heap.length := Nat.ne_of_lt (pool_mem_lt ⟨hlk, hnd, hpool, huniq, hhs, hout⟩ hj)
      refine ⟨a, by rw [hgnew j hj]; exact hga, hwk, ?_, hbl⟩
      rw [List.count_append, List.count_singleton', if_neg (fun e => hjne e.symm)]
      omega
    · rw [List.mem_singleton] at hj
      subst hj
      refine ⟨⟨s, m, 2, 0⟩, getArc_concat_self, rfl, ?_, hb⟩
      rw [List.count_append, List.count_singleton', if_pos rfl,
        List.count_eq_zero.mpr hLhs]
  · intro j1 hj1 j2 hj2 hpeq
    have hpats : ∀ k ∈ w.st.pool ++ [w.st.heap.length],
        patternOf ⟨w.st.heap ++ [some ⟨s, m, 2, 0⟩], w.st.pool ++ [w.st.heap.length], false,
          w.st.compiles + 1⟩ k =
        if k = w.st.heap.length then some s else patternOf w.st k := by
      intro k hk
      by_cases hkL : k = w.st.heap.length
      · subst hkL
        rw [if_pos rfl, patternOf, getArc_concat_self]
        rfl
      · rcases List.mem_append.mp hk with hk | hk
        · rw [if_neg hkL]
          exact patternOf_congr (hgnew k hk)
        · rw [List.mem_singleton] at hk
          exact absurd hk hkL
    rw [hpats j1 hj1, hpats j2 hj2] at hpeq
    by_cases h1 : j1 = w.st.heap.length <;> by_cases h2 : j2 = w.st.heap.length
    · rw [h1, h2]
    · rw [if_pos h1, if_neg h2] at hpeq
      have hj2p : j2 ∈ w.st.pool := by
        rcases List.mem_append.mp hj2 with h | h
        · exact h
        · rw [List.mem_singleton] at h
          exact absurd h h2
      exact absurd hpeq.symm (poolFind_none_iff.mp hnf j2 hj2p)
    · rw [if_neg h1, if_pos h2] at hpeq
      have hj1p : j1 ∈ w.st.pool := by
        rcases List.mem_append.mp hj1 with h | h
        · exact h
        · rw [List.mem_singleton] at h
          exact absurd h h1
      exact absurd hpeq (poolFind_none_iff.mp hnf j1 hj1p)
    · rw [if_neg h1, if_neg h2] at hpeq
      have hj1p : j1 ∈ w.st.pool := by
        rcases List.mem_append.mp hj1 with h | h
        · exact h
        · rw [List.mem_singleton] at h
          exact absurd h h1
      have hj2p : j2 ∈ w.st.pool := by
        rcases List.mem_append.mp hj2 with h | h
        · exact h
        · rw [List.mem_singleton] at h
          exact absurd h h2
      exact huniq j1 hj1p j2 hj2p hpeq
  · intro h hh
    rcases List.mem_append.mp hh with hh | hh
    · exact List.mem_append.mpr (Or.inl (hhs h hh))
    · exact List.mem_append.mpr (Or.inr hh)
  · intro j hjlt hjpool
    have hjne : j ≠ w.st.heap.length := by
      intro e
      exact hjpool (List.mem_append.mpr (Or.inr (by rw [e]; exact List.mem_singleton.mpr rfl)))
    have hjlt' : j < w.st.heap.length := by
      have : j < (w.st.heap ++ [some (⟨s, m, 2, 0⟩ : ArcState)]).length := hjlt
      rw [List.length_append, List.length_singleton] at this
      omega
    rw [getArc_append hjlt']
    exact hout j hjlt' (fun hc => hjpool (List.mem_append.mpr (Or.inl hc)))



/-- Well-formedness of the closed-form post-state of a registry hit. -/
theorem wf_hit {w : World} {s : String} {j : Nat} {aj : ArcState}
    (hwf : WF w) (hf : poolFind w.st s = some j) (hgaj : getArc w.st j = some aj) :
    WF ⟨⟨(w.st.heap ++ [none]).set j (some { aj with strong := aj.strong + 1 }),
        w.st.pool, false, w.st.compiles + 1⟩, w.hs ++ [j]⟩ := by
  obtain ⟨hlk, hnd, hpool, huniq, hhs, hout⟩ := hwf
  obtain ⟨hjmem, hjpat⟩ := poolFind_some hf
  have hjlt : j < w.st.heap.length := getArc_lt_length hgaj
  have hjlt2 : j < (w.st.heap ++ [(none : Option ArcState)]).length := by
    rw [List.length_append]
    simp
    omega
  have hgj : getArc ⟨(w.st.heap ++ [none]).set j (some { aj with strong := aj.strong + 1 }),
      w.st.pool, false, w.st.compiles + 1⟩ j = some { aj with strong := aj.strong + 1 } := by
    show (((w.st.heap ++ [none]).set j _).get? j).join = _
    rw [List.get?_set_eq_of_lt _ hjlt2]
    rfl
  have hgne : ∀ k, k ≠ j → k < w.st.heap.length →
      getArc ⟨(w.st.heap ++ [none]).set j (some { aj with strong := aj.strong + 1 }),
        w.st.pool, false, w.st.compiles + 1⟩ k = getArc w.st k := by
    intro k hkj hklt
    show (((w.st.heap ++ [none]).set j _).get? k).join = _
    rw [List.get?_set_ne _ _ (fun e => hkj e.symm), List.get?_append hklt]
    rfl
  obtain ⟨a, hga', hwk, hst, hbl⟩ := hpool j hjmem
  have haeq : a = aj := by
    rw [hga'] at hgaj
    exact Option.some.inj hgaj
  subst haeq
  refine ⟨rfl, hnd, ?_, ?_, ?_, ?_⟩
  · intro k hk
    by_cases hkj : k = j
    · subst hkj
      refine ⟨{ a with strong := a.strong + 1 }, hgj, hwk, ?_, hbl⟩
      rw [List.count_append, List.count_singleton', if_pos rfl]
      show a.strong + 1 = 1 + (List.count k w.hs + 1)
      omega
    · obtain ⟨ak, hgak, hwkk, hstk, hblk⟩ := hpool k hk
      refine ⟨ak, by
        rw [hgne k hkj (getArc_lt_length hgak)]
        exact hgak, hwkk, ?_, hblk⟩
      rw [List.count_append, List.count_singleton', if_neg (fun e => hkj e.symm)]
      omega
  · intro j1 hj1 j2 hj2 hpeq
    have hpats : ∀ k ∈ w.st.pool,
        patternOf ⟨(w.st.heap ++ [none]).set j (some { a with strong := a.strong + 1 }),
          w.st.pool, false, w.st.compiles + 1⟩ k = patternOf w.st k := by
      intro k hk
      by_cases hkj : k = j
      · subst hkj
        rw [patternOf, hgj, patternOf, hga']
        rfl
      · exact patternOf_congr (hgne k hkj (pool_mem_lt ⟨hlk, hnd, hpool, huniq, hhs, hout⟩ hk))
    rw [hpats j1 hj1, hpats j2 hj2] at hpeq
    exact huniq j1 hj1 j2 hj2 hpeq
  · intro h hh
    rcases List.mem_append.mp hh with hh | hh
    · exact hhs h hh
    · rw [List.mem_singleton] at hh
      exact hh ▸ hjmem
  · intro k hklt hkpool
    have hkj : k ≠ j := fun e => hkpool (e ▸ hjmem)
    have hlen : ((w.st.heap ++ [none]).set j
        (some { a with strong := a.strong + 1 })).length = w.st.heap.length + 1 := by
      rw [List.length_set, List.length_append]
      simp
    rw [hlen] at hklt
    by_cases hkL : k < w.st.heap.length
    · rw [hgne k hkj hkL]
      exact hout k hkL hkpool
    · have hkeq : k = w.st.heap.length := by omega
      subst hkeq
      show (((w.st.heap ++ [none]).set j _).get? w.st.heap.length).join = none
      rw [List.get?_set_ne _ _ (fun e => hkj e.symm), List.get?_concat_length]
      rfl



theorem getArc_setlit_self {st : PoolState} {pl : List Nat} {lk : Bool} {c : Nat}
    {h : Nat} (v : Option ArcState) (hlt : h < st.heap.length) :
    getArc ⟨st.heap.set h v, pl, lk, c⟩ h = v := by
  show ((st.heap.set h v).get? h).join = v
  rw [List.get?_set_eq_of_lt _ hlt]
  rfl

theorem getArc_setlit_ne {st : PoolState} {pl : List Nat} {lk : Bool} {c : Nat}
    {h k : Nat} (v : Option ArcState) (hne : k ≠ h) :
    getArc ⟨st.heap.set h v, pl, lk, c⟩ k = getArc st k := by
  show ((st.heap.set h v).get? k).join = _
  rw [List.get?_set_ne _ _ (fun e => hne e.symm)]
  rfl

/-- Well-formedness of the closed-form post-state of a last-owner release. -/
theorem wf_drop_last {w : World} {h : Nat}
    (hwf : WF w) (hmem : h ∈ w.hs) (hcount : w.hs.count h = 1) :
    WF ⟨⟨w.st.heap.set h none, w.st.pool.erase h, false, w.st.compiles⟩,
        w.hs.erase h⟩ := by
  obtain ⟨hlk, hnd, hpool, huniq, hhs, hout⟩ := hwf
  have hpm : h ∈ w.st.pool := hhs h hmem
  have hnotin : h ∉ w.hs.erase h := by
    intro hc
    have := List.count_pos_iff.mpr hc
    rw [List.count_erase_self, hcount] at this
    omega
  refine ⟨rfl, hnd.erase h, ?_, ?_, ?_, ?_⟩
  · intro j hj
    obtain ⟨hjh, hjp⟩ := (hnd.mem_erase_iff).mp hj
    obtain ⟨a, hga, hwk, hst, hbl⟩ := hpool j hjp
    refine ⟨a, by rw [getArc_setlit_ne _ hjh]; exact hga, hwk, ?_, hbl⟩
    rw [List.count_erase_of_ne hjh]
    exact hst
  · intro j1 hj1 j2 hj2 hpeq
    obtain ⟨hj1h, hj1p⟩ := (hnd.mem_erase_iff).mp hj1
    obtain ⟨hj2h, hj2p⟩ := (hnd.mem_erase_iff).mp hj2
    rw [patternOf_congr (getArc_setlit_ne _ hj1h),
      patternOf_congr (getArc_setlit_ne _ hj2h)] at hpeq
    exact huniq j1 hj1p j2 hj2p hpeq
  · intro k hk
    have hkhs : k ∈ w.hs := List.erase_subset _ _ hk
    have hkh : k ≠ h := fun e => hnotin (e ▸ hk)
    exact (hnd.mem_erase_iff).mpr ⟨hkh, hhs k hkhs⟩
  · intro j hjlt hjpool
    have hjlt' : j < w.st.heap.length := by
      rw [show (⟨w.st.heap.set h none, w.st.pool.erase h, false,
        w.st.compiles⟩ : PoolState).heap.length = (w.st.heap.set h none).length from rfl,
        List.length_set] at hjlt
      exact hjlt
    by_cases hjh : j = h
    · subst hjh
      exact getArc_setlit_self _ hjlt'
    · rw [getArc_setlit_ne _ hjh]
      apply hout j hjlt'
      intro hc
      exact hjpool ((hnd.mem_erase_iff).mpr ⟨hjh, hc⟩)

/-- Well-formedness of the post-state of a non-last release. -/
theorem wf_drop_nonlast {w : World} {h : Nat} {a : ArcState}
    (hwf : WF w) (hmem : h ∈ w.hs) (hcount : 2 ≤ w.hs.count h)
    (hga : getArc w.st h = some a) :
    WF ⟨setArc w.st h (some { a with strong := a.strong - 1 }), w.hs.erase h⟩ := by
  obtain ⟨hlk, hnd, hpool, huniq, hhs, hout⟩ := hwf
  have hpm : h ∈ w.st.pool := hhs h hmem
  obtain ⟨a0, hga0, hwk, hst, hbl⟩ := hpool h hpm
  have ha0 : a0 = a := by
    rw [hga0] at hga
    exact Option.some.inj hga
  subst ha0
  have hlt : h < w.st.heap.length := getArc_lt_length hga0
  refine ⟨hlk, hnd, ?_, ?_, ?_, ?_⟩
  · intro j hj
    by_cases hjh : j = h
    · subst hjh
      refine ⟨{ a0 with strong := a0.strong - 1 },
        by rw [getArc_setArc_self _ hlt], hwk, ?_, hbl⟩
      show a0.strong - 1 = 1 + List.count j (w.hs.erase j)
      rw [List.count_erase_self]
      omega
    · obtain ⟨ak, hgak, hwkk, hstk, hblk⟩ := hpool j hj
      refine ⟨ak, by
        rw [getArc_setArc_ne _ (fun e => hjh e.symm)]
        exact hgak, hwkk, ?_, hblk⟩
      rw [List.count_erase_of_ne hjh]
      exact hstk
  · intro j1 hj1 j2 hj2 hpeq
    have hpats : ∀ k ∈ w.st.pool,
        patternOf (setArc w.st h (some { a0 with strong := a0.strong - 1 })) k
          = patternOf w.st k := by
      intro k hk
      by_cases hkh : k = h
      · subst hkh
        rw [patternOf, getArc_setArc_self _ hlt, patternOf, hga0]
        rfl
      · exact patternOf_congr (getArc_setArc_ne _ (fun e => hkh e.symm))
    rw [setArc_pool] at hj1 hj2
    rw [hpats j1 hj1, hpats j2 hj2] at hpeq
    exact huniq j1 hj1 j2 hj2 hpeq
  · intro k hk
    rw [setArc_pool]
    exact hhs k (List.erase_subset _ _ hk)
  · intro j hjlt hjpool
    rw [setArc_pool] at hjpool
    rw [setArc_heap_length] at hjlt
    have hjh : j ≠ h := fun e => hjpool (e ▸ hpm)
    rw [getArc_setArc_ne _ (fun e => hjh e.symm)]
    exact hout j hjlt hjpool

/-- Well-formedness of the post-state of a handle clone. -/
theorem wf_clone {w : World} {h : Nat} (hwf : WF w) (hmem : h ∈ w.hs) :
    WF ⟨strongInc w.st h, w.hs ++ [h]⟩ := by
  obtain ⟨hlk, hnd, hpool, huniq, hhs, hout⟩ := hwf
  have hpm : h ∈ w.st.pool := hhs h hmem
  obtain ⟨a, hga, hwk, hst, hbl⟩ := hpool h hpm
  have hlt : h < w.st.heap.length := getArc_lt_length hga
  rw [strongInc_some hga]
  refine ⟨hlk, hnd, ?_, ?_, ?_, ?_⟩
  · intro j hj
    by_cases hjh : j = h
    · subst hjh
      refine ⟨{ a with strong := a.strong + 1 },
        by rw [getArc_setArc_self _ hlt], hwk, ?_, hbl⟩
      show a.strong + 1 = 1 + List.count j (w.hs ++ [j])
      rw [List.count_append, List.count_singleton', if_pos rfl]
      omega
    · obtain ⟨ak, hgak, hwkk, hstk, hblk⟩ := hpool j hj
      refine ⟨ak, by
        rw [getArc_setArc_ne _ (fun e => hjh e.symm)]
        exact hgak, hwkk, ?_, hblk⟩
      rw [List.count_append, List.count_singleton', if_neg (fun e => hjh e.symm)]
      omega
  · intro j1 hj1 j2 hj2 hpeq
    have hpats : ∀ k ∈ w.st.pool,
        patternOf (setArc w.st h (some { a with strong := a.strong + 1 })) k
          = patternOf w.st k := by
      intro k hk
      by_cases hkh : k = h
      · subst hkh
        rw [patternOf, getArc_setArc_self _ hlt, patternOf, hga]
        rfl
      · exact patternOf_congr (getArc_setArc_ne _ (fun e => hkh e.symm))
    rw [setArc_pool] at hj1 hj2
    rw [hpats j1 hj1, hpats j2 hj2] at hpeq
    exact huniq j1 hj1 j2 hj2 hpeq
  · intro k hk
    rw [setArc_pool]
    rcases List.mem_append.mp hk with hk | hk
    · exact hhs k hk
    · rw [List.mem_singleton] at hk
      exact hk ▸ hpm
  · intro j hjlt hjpool
    rw [setArc_pool] at hjpool
    rw [setArc_heap_length] at hjlt
    have hjh : j ≠ h := fun e => hjpool (e ▸ hpm)
    rw [getArc_setArc_ne _ (fun e => hjh e.symm)]
    exact hout j hjlt hjpool



/-- Every reachable-state invariant is preserved by every operation. -/
theorem wf_step {w w' : World} {op : Op} (hwf : WF w) (hstep : step w op = some w') :
    WF w' := by
  cases op with
  | parse s =>
    simp only [step] at hstep
    cases hbq : buildRegex s.toList with
    | none =>
      rw [fromStr_error hbq] at hstep
      simp only [Option.map_some, Option.map_some'] at hstep
      obtain rfl := Option.some.inj hstep
      exact hwf
    | some m =>
      cases hpf : poolFind w.st s with
      | none =>
        rw [fromStr_miss_spec hwf hbq hpf] at hstep
        simp only [Option.map_some, Option.map_some'] at hstep
        obtain rfl := Option.some.inj hstep
        exact wf_miss hwf hbq hpf
      | some j =>
        obtain ⟨aj, hgaj, heq⟩ := fromStr_hit_spec hwf hbq hpf
        rw [heq] at hstep
        simp only [Option.map_some, Option.map_some'] at hstep
        obtain rfl := Option.some.inj hstep
        exact wf_hit hwf hpf hgaj
  | clone h =>
    simp only [step] at hstep
    by_cases hmem : h ∈ w.hs
    · rw [if_pos hmem] at hstep
      obtain rfl := Option.some.inj hstep
      exact wf_clone hwf hmem
    · rw [if_neg hmem] at hstep
      obtain rfl := Option.some.inj hstep
      exact hwf
  | drop h =>
    simp only [step] at hstep
    by_cases hmem : h ∈ w.hs
    · rw [if_pos hmem] at hstep
      have hc1 : 0 < w.hs.count h := List.count_pos_iff.mpr hmem
      by_cases hc : w.hs.count h = 1
      · rw [drop_last_spec ⟨hwf.1, hwf.2.1, hwf.2.2.1, hwf.2.2.2.1, hwf.2.2.2.2.1,
          hwf.2.2.2.2.2⟩ hmem hc] at hstep
        simp only [Option.map_some, Option.map_some'] at hstep
        obtain rfl := Option.some.inj hstep
        exact wf_drop_last hwf hmem hc
      · have hc2 : 2 ≤ w.hs.count h := by omega
        obtain ⟨a, hga, hlt2, hdf⟩ := drop_nonlast_spec hwf hmem hc2
        rw [hdf] at hstep
        simp only [Option.map_some, Option.map_some'] at hstep
        obtain rfl := Option.some.inj hstep
        exact wf_drop_nonlast hwf hmem hc2 hga
    · rw [if_neg hmem] at hstep
      obtain rfl := Option.some.inj hstep
      exact hwf

/-- From a well-formed world no operation can deadlock: `step` always
produces a successor state. -/
theorem step_isSome {w : World} (hwf : WF w) (op : Op) : (step w op).isSome := by
  cases op with
  | parse s =>
    simp only [step]
    cases hbq : buildRegex s.toList with
    | none =>
      rw [fromStr_error hbq]
      rfl
    | some m =>
      cases hpf : poolFind w.st s with
      | none =>
        rw [fromStr_miss_spec hwf hbq hpf]
        rfl
      | some j =>
        obtain ⟨aj, hgaj, heq⟩ := fromStr_hit_spec hwf hbq hpf
        rw [heq]
        rfl
  | clone h =>
    simp only [step]
    by_cases hmem : h ∈ w.hs
    · rw [if_pos hmem]
      rfl
    · rw [if_neg hmem]
      rfl
  | drop h =>
    simp only [step]
    by_cases hmem : h ∈ w.hs
    · rw [if_pos hmem]
      have hc1 : 0 < w.hs.count h := List.count_pos_iff.mpr hmem
      by_cases hc : w.hs.count h = 1
      · rw [drop_last_spec hwf hmem hc]
        rfl
      · have hc2 : 2 ≤ w.hs.count h := by omega
        obtain ⟨a, hga, hlt2, hdf⟩ := drop_nonlast_spec hwf hmem hc2
        rw [hdf]
        rfl
    · rw [if_neg hmem]
      rfl

/-- The initial world is well-formed. -/
theorem wf_init : WF initWorld := by decide



/-- Parsing never changes the pattern stored by an existing pool entry. -/
theorem fromStr_pattern_frame {w : World} {P : String} {r : Except CompileError Nat}
    {st' : PoolState} (hwf : WF w) (h : fromStr w.st P = some (r, st')) :
    ∀ k ∈ w.st.pool, patternOf st' k = patternOf w.st k := by
  intro k hk
  have hklt : k < w.st.heap.length := pool_mem_lt hwf hk
  cases hbq : buildRegex P.toList with
  | none =>
    rw [fromStr_error hbq] at h
    obtain ⟨-, rfl⟩ := Prod.mk.injEq .. ▸ Option.some.inj h
    rfl
  | some m =>
    cases hpf : poolFind w.st P with
    | none =>
      rw [fromStr_miss_spec hwf hbq hpf] at h
      obtain ⟨-, rfl⟩ := Prod.mk.injEq .. ▸ Option.some.inj h
      exact patternOf_congr (getArc_append hklt)
    | some j =>
      obtain ⟨aj, hgaj, heq⟩ := fromStr_hit_spec hwf hbq hpf
      rw [heq] at h
      obtain ⟨-, rfl⟩ := Prod.mk.injEq .. ▸ Option.some.inj h
      by_cases hkj : k = j
      · subst hkj
        have : getArc ⟨(w.st.heap ++ [none]).set k (some { aj with strong := aj.strong + 1 }),
            w.st.pool, false, w.st.compiles + 1⟩ k = some { aj with strong := aj.strong + 1 } := by
          show (((w.st.heap ++ [none]).set k _).get? k).join = _
          rw [List.get?_set_eq_of_lt]
          · rfl
          · rw [List.length_append]
            omega
        rw [patternOf, this, patternOf, hgaj]
        rfl
      · apply patternOf_congr
        show (((w.st.heap ++ [none]).set j _).get? k).join = _
        rw [List.get?_set_ne _ _ (fun e => hkj e.symm), List.get?_append hklt]
        rfl

/-- A successful `from_str` returns a handle whose stored pattern text is
exactly the supplied string. -/
theorem fromStr_ok_pattern {w : World} {P : String} {h : Nat} {st' : PoolState}
    (hwf : WF w) (hok : fromStr w.st P = some (Except.ok h, st')) :
    patternOf st' h = some P := by
  cases hbq : buildRegex P.toList with
  | none =>
    rw [fromStr_error hbq] at hok
    exact absurd (congrArg Prod.fst (Option.some.inj hok)) (by simp)
  | some m =>
    cases hpf : poolFind w.st P with
    | none =>
      rw [fromStr_miss_spec hwf hbq hpf] at hok
      have hpair := Option.some.inj hok
      have hid : w.st.heap.length = h := by
        have := congrArg Prod.fst hpair
        simpa using this
      have hst : st' = ⟨w.st.heap ++ [some ⟨P, m, 2, 0⟩], w.st.pool ++ [w.st.heap.length],
          false, w.st.compiles + 1⟩ := by
        have := congrArg Prod.snd hpair
        simpa using this.symm
      subst hst
      rw [← hid, patternOf, getArc_concat_self]
      rfl
    | some j =>
      obtain ⟨aj, hgaj, heq⟩ := fromStr_hit_spec hwf hbq hpf
      rw [heq] at hok
      have hpair := Option.some.inj hok
      have hid : j = h := by
        have := congrArg Prod.fst hpair
        simpa using this
      have hst : st' = ⟨(w.st.heap ++ [none]).set j (some { aj with strong := aj.strong + 1 }),
          w.st.pool, false, w.st.compiles + 1⟩ := by
        have := congrArg Prod.snd hpair
        simpa using this.symm
      subst hst
      subst hid
      have hjlt : j < w.st.heap.length := getArc_lt_length hgaj
      have hg : getArc ⟨(w.st.heap ++ [none]).set j (some { aj with strong := aj.strong + 1 }),
          w.st.pool, false, w.st.compiles + 1⟩ j = some { aj with strong := aj.strong + 1 } := by
        show (((w.st.heap ++ [none]).set j _).get? j).join = _
        rw [List.get?_set_eq_of_lt]
        · rfl
        · rw [List.length_append]
          omega
      rw [patternOf, hg]
      have hjp : patternOf w.st j = some P := (poolFind_some hpf).2
      rw [patternOf, hgaj] at hjp
      have : aj.pattern = P := by simpa using hjp
      simp [this]

/-- While a handle for pattern `P` is alive, `from_str P` hits the pool and
returns the very same arc id. -/
theorem fromStr_alive_same {w : World} {h : Nat} {P : String}
    (hwf : WF w) (hmem : h ∈ w.hs) (hpat : patternOf w.st h = some P) :
    ∃ st', fromStr w.st P = some (Except.ok h, st') := by
  have hpm : h ∈ w.st.pool := hwf.2.2.2.2.1 h hmem
  obtain ⟨a, hga, hwk, hst, hbl⟩ := hwf.2.2.1 h hpm
  have hap : a.pattern = P := by
    rw [patternOf, hga] at hpat
    simpa using hpat
  have hb : buildRegex P.toList = some a.matcher := by
    rw [← hap]
    exact hbl
  have hf : poolFind w.st P = some h :=
    poolFind_eq_some_of hpm hpat
      (fun j2 hj2 hpj2 => hwf.2.2.2.1 j2 hj2 h hpm (by rw [hpj2, hpat]))
  obtain ⟨aj, hgaj, heq⟩ := fromStr_hit_spec hwf hb hf
  exact ⟨_, heq⟩




theorem step_parse_ok {w : World} {P : String} {i : Nat} {st' : PoolState}
    (h : fromStr w.st P = some (Except.ok i, st')) :
    step w (Op.parse P) = some ⟨st', w.hs ++ [i]⟩ := by
  simp [step, h]

theorem fromStr_valid_ok {w : World} {P : String} {m : Matcher}
    (hwf : WF w) (hb : buildRegex P.toList = some m) :
    ∃ i st', fromStr w.st P = some (Except.ok i, st') := by
  cases hpf : poolFind w.st P with
  | none => exact ⟨_, _, fromStr_miss_spec hwf hb hpf⟩
  | some j =>
    obtain ⟨aj, hgaj, heq⟩ := fromStr_hit_spec hwf hb hpf
    exact ⟨_, _, heq⟩

theorem runOps_isSome {w : World} (hwf : WF w) (ops : List Op) :
    (runOps w ops).isSome := by
  induction ops generalizing w with
  | nil => rfl
  | cons op ops ih =>
    obtain ⟨w', hw'⟩ := Option.isSome_iff_exists.mp (step_isSome hwf op)
    rw [runOps, hw']
    exact ih (wf_step hwf hw')

theorem parse_replicate_stable {P : String} {i : Nat} :
    ∀ (n : Nat) (w : World), WF w → i ∈ w.hs → patternOf w.st i = some P →
      ∃ w', runOps w (List.replicate n (Op.parse P)) = some w' ∧ WF w' ∧
        w'.hs = w.hs ++ List.replicate n i ∧ patternOf w'.st i = some P := by
  intro n
  induction n with
  | zero =>
    intro w hwf hmem hpat
    exact ⟨w, rfl, hwf, by simp, hpat⟩
  | succ k ih =>
    intro w hwf hmem hpat
    obtain ⟨st', heq⟩ := fromStr_alive_same hwf hmem hpat
    have hstep := step_parse_ok heq
    have hwf' := wf_step hwf hstep
    have hmem' : i ∈ w.hs ++ [i] := List.mem_append.mpr (Or.inr (List.mem_singleton.mpr rfl))
    have hpat' : patternOf st' i = some P := fromStr_ok_pattern hwf heq
    obtain ⟨w', hrun, hwfw, hhs, hpatw⟩ := ih ⟨st', w.hs ++ [i]⟩ hwf' hmem' hpat'
    refine ⟨w', ?_, hwfw, ?_, hpatw⟩
    · rw [List.replicate_succ, runOps, hstep]
      exact hrun
    · rw [hhs]
      simp [List.replicate_succ]



/-! ### Additional shared helpers for the claims -/

/-- A registry hit returns the stored entry, discards the freshly compiled
duplicate (its heap slot is destroyed), leaves the pool untouched, and still
counts one more compilation. -/
theorem hit_discards_duplicate {w : World} {P : String} {m : Matcher} {j : Nat}
    (hwf : WF w) (hb : buildRegex P.toList = some m) (hf : poolFind w.st P = some j) :
    ∃ aj st', getArc w.st j = some aj ∧
      fromStr w.st P = some (Except.ok j, st') ∧
      st'.compiles = w.st.compiles + 1 ∧
      st'.pool = w.st.pool ∧
      getArc st' w.st.heap.length = none ∧
      getArc st' j = some { aj with strong := aj.strong + 1 } := by
  obtain ⟨aj, hgaj, heq⟩ := fromStr_hit_spec hwf hb hf
  have hjlt : j < w.st.heap.length := getArc_lt_length hgaj
  refine ⟨aj, _, hgaj, heq, rfl, rfl, ?_, ?_⟩
  · show (((w.st.heap ++ [none]).set j _).get? w.st.heap.length).join = none
    rw [List.get?_set_ne _ _ (Nat.ne_of_lt hjlt), List.get?_concat_length]
    rfl
  · show (((w.st.heap ++ [none]).set j _).get? j).join = _
    rw [List.get?_set_eq_of_lt]
    · rfl
    · rw [List.length_append]
      simp
      omega

/-! ### The claims -/

/-- Claim C1: for every valid pattern text P, while at least one previously
returned handle for P is still alive, any further `parse(P)` returns a
handle backed by the same `CompiledMatcher` instance — the very same arc id
as the live handle. -/
theorem claim1_dedup_identity {w : World} {h : Nat} {P : String}
    (hwf : WF w) (hmem : h ∈ w.hs) (hpat : patternOf w.st h = some P) :
    ∃ st', fromStr w.st P = some (Except.ok h, st') :=
  fromStr_alive_same hwf hmem hpat

theorem claim1_dedup_identity_witness :
    ∃ st', fromStr (⟨[some ⟨"abc", ⟨false, [97, 98, 99]⟩, 2, 0⟩], [0], false, 1⟩ : PoolState)
      "abc" = some (Except.ok 0, st') :=
  @claim1_dedup_identity
    ⟨⟨[some ⟨"abc", ⟨false, [97, 98, 99]⟩, 2, 0⟩], [0], false, 1⟩, [0]⟩ 0 "abc"
    (by decide) (by decide) (by decide)

/-- Claim C5: for every invalid pattern text P, `parse(P)` returns a
`CompileError` carrying the syntax diagnostic and the registry state is
returned exactly unchanged (no insertion, same observable size, not even the
compilation counter moves). -/
theorem claim5_error_no_insertion {st : PoolState} {P : String}
    (h : buildRegex P.toList = none) :
    ∃ e : CompileError, fromStr st P = some (Except.error e, st) ∧ e.diag = P :=
  ⟨⟨P⟩, fromStr_error h, rfl⟩

theorem claim5_error_no_insertion_witness :
    buildRegex "a(b".toList = none ∧
    ∃ e : CompileError, fromStr initPool "a(b" = some (Except.error e, initPool) ∧
      e.diag = "a(b" :=
  ⟨by decide, @claim5_error_no_insertion initPool "a(b" (by decide)⟩

/-- Claim C6: for every valid pattern text P, the handle returned by
`parse(P)` satisfies `as_str = P` exactly — the original pattern text with
no normalization. -/
theorem claim6_round_trip {w : World} {P : String} {h : Nat} {st' : PoolState}
    (hwf : WF w) (hok : fromStr w.st P = some (Except.ok h, st')) :
    asStr st' h = some P :=
  fromStr_ok_pattern hwf hok

theorem claim6_round_trip_witness :
    asStr (⟨[some ⟨"abc", ⟨false, [97, 98, 99]⟩, 2, 0⟩], [0], false, 1⟩ : PoolState) 0
      = some "abc" :=
  @claim6_round_trip initWorld "abc" 0
    ⟨[some ⟨"abc", ⟨false, [97, 98, 99]⟩, 2, 0⟩], [0], false, 1⟩
    (by decide) rfl

/-- Claim C8: matching is byte-oriented and non-Unicode-aware: the pattern
text `\xff` compiles (with Unicode semantics disabled) to a matcher on the
single raw byte 0xFF, and matching it against the non-UTF8 input byte 0xFF
returns true. -/
theorem claim8_byte_matching :
    fromStr initPool "\\xff" = some (Except.ok 0,
      ⟨[some ⟨"\\xff", ⟨false, [255]⟩, 2, 0⟩], [0], false, 1⟩) ∧
    isMatch ⟨[some ⟨"\\xff", ⟨false, [255]⟩, 2, 0⟩], [0], false, 1⟩ 0 [255] = true :=
  ⟨rfl, by decide⟩



/-- Claim C4 counterexample: `from_str` compiles the pattern before the pool
lookup, on every call.  Parsing "x" from the empty pool and then parsing "x"
again while the first handle is alive is a registry hit — it returns the
same arc id 0 and inserts nothing — yet the compilation counter advances
from 1 to 2, so a compilation did occur on the hit. -/
theorem claim4_counterexample :
    fromStr initPool "x" =
      some (Except.ok 0, ⟨[some ⟨"x", ⟨false, [120]⟩, 2, 0⟩], [0], false, 1⟩) ∧
    fromStr (⟨[some ⟨"x", ⟨false, [120]⟩, 2, 0⟩], [0], false, 1⟩ : PoolState) "x" =
      some (Except.ok 0, ⟨[some ⟨"x", ⟨false, [120]⟩, 3, 0⟩, none], [0], false, 2⟩) :=
  ⟨rfl, rfl⟩

/-- Claim C4 as amended: when `parse(P)` hits a live registry entry it
returns a new handle sharing the existing `CompiledMatcher` and inserts
nothing, but it still performs one (discarded) compilation; only the
retention of a compiled matcher is limited to one per live entry. -/
theorem claim4_hit_shares_existing {w : World} {P : String} {m : Matcher} {j : Nat}
    (hwf : WF w) (hb : buildRegex P.toList = some m) (hf : poolFind w.st P = some j) :
    ∃ aj st', getArc w.st j = some aj ∧
      fromStr w.st P = some (Except.ok j, st') ∧
      st'.compiles = w.st.compiles + 1 ∧
      st'.pool = w.st.pool ∧
      getArc st' w.st.heap.length = none ∧
      getArc st' j = some { aj with strong := aj.strong + 1 } :=
  hit_discards_duplicate hwf hb hf

theorem claim4_hit_shares_existing_witness :
    ∃ aj st',
      getArc (⟨[some ⟨"x", ⟨false, [120]⟩, 2, 0⟩], [0], false, 1⟩ : PoolState) 0 = some aj ∧
      fromStr (⟨[some ⟨"x", ⟨false, [120]⟩, 2, 0⟩], [0], false, 1⟩ : PoolState) "x" =
        some (Except.ok 0, st') ∧
      st'.compiles = 1 + 1 ∧
      st'.pool = [0] ∧
      getArc st' 1 = none ∧
      getArc st' 0 = some { aj with strong := aj.strong + 1 } :=
  @claim4_hit_shares_existing
    ⟨⟨[some ⟨"x", ⟨false, [120]⟩, 2, 0⟩], [0], false, 1⟩, [0]⟩ "x" ⟨false, [120]⟩ 0
    (by decide) (by decide) (by decide)

/-- Claim C10: dropping a handle whose strong count is not exactly 2 or
whose weak count is nonzero performs no registry interaction at all (the
pool, the lock and the compilation counter are untouched; only the strong
count moves); in particular the freshly compiled duplicate that `from_str`
creates before discovering a hit (strong count 1) is discarded by
`get_or_insert` without removing or otherwise altering the live pool entry
for that pattern. -/
theorem claim10_drop_frame {st : PoolState} {h : Nat} {a : ArcState}
    (hga : getArc st h = some a) (hcond : ¬(a.strong = 2 ∧ a.weak = 0)) :
    (dropFuel 2 st h = some (arcDec st h) ∧
     (arcDec st h).pool = st.pool ∧
     (arcDec st h).locked = st.locked ∧
     (arcDec st h).compiles = st.compiles) ∧
    (∀ (w : World) (P : String) (m : Matcher) (j : Nat), WF w →
      buildRegex P.toList = some m → poolFind w.st P = some j →
      ∃ aj st', getArc w.st j = some aj ∧
        fromStr w.st P = some (Except.ok j, st') ∧
        st'.pool = w.st.pool ∧
        getArc st' w.st.heap.length = none ∧
        getArc st' j = some { aj with strong := aj.strong + 1 }) := by
  constructor
  · have hC : (a.strong == 2 && a.weak == 0) = false := by
      rcases not_and_or.mp hcond with hs | hw
      · simp [hs]
      · simp [hw]
    have hp := dropFuel_plain (n := 1) hga hC
    rw [show (1 : Nat) + 1 = 2 from rfl] at hp
    exact ⟨hp, arcDec_pool st h, arcDec_locked st h, arcDec_compiles st h⟩
  · intro w P m j hwf hb hf
    obtain ⟨aj, st', hgaj, heq, -, hpool, hfresh, hj⟩ := hit_discards_duplicate hwf hb hf
    exact ⟨aj, st', hgaj, heq, hpool, hfresh, hj⟩

theorem claim10_drop_frame_witness :
    (dropFuel 2 (⟨[some ⟨"x", ⟨false, [120]⟩, 3, 0⟩, none], [0], false, 2⟩ : PoolState) 0 =
      some (arcDec ⟨[some ⟨"x", ⟨false, [120]⟩, 3, 0⟩, none], [0], false, 2⟩ 0) ∧
     (arcDec (⟨[some ⟨"x", ⟨false, [120]⟩, 3, 0⟩, none], [0], false, 2⟩ : PoolState) 0).pool = [0] ∧
     (arcDec (⟨[some ⟨"x", ⟨false, [120]⟩, 3, 0⟩, none], [0], false, 2⟩ : PoolState) 0).locked = false ∧
     (arcDec (⟨[some ⟨"x", ⟨false, [120]⟩, 3, 0⟩, none], [0], false, 2⟩ : PoolState) 0).compiles = 2) ∧
    (∀ (w : World) (P : String) (m : Matcher) (j : Nat), WF w →
      buildRegex P.toList = some m → poolFind w.st P = some j →
      ∃ aj st', getArc w.st j = some aj ∧
        fromStr w.st P = some (Except.ok j, st') ∧
        st'.pool = w.st.pool ∧
        getArc st' w.st.heap.length = none ∧
        getArc st' j = some { aj with strong := aj.strong + 1 }) :=
  @claim10_drop_frame ⟨[some ⟨"x", ⟨false, [120]⟩, 3, 0⟩, none], [0], false, 2⟩ 0
    ⟨"x", ⟨false, [120]⟩, 3, 0⟩ (by decide) (by decide)



/-- Claim C2: after the last external handle for pattern text P is dropped,
the registry holds no entry for P and its size shrinks by one; a subsequent
`parse(P)` succeeds with a brand-new arc (a fresh compilation: the returned
id names a previously dead heap slot and the compile counter advances), and
the registry size returns to its prior value. -/
theorem claim2_reclamation {w : World} {h : Nat} {P : String}
    (hwf : WF w) (hmem : h ∈ w.hs) (hcount : w.hs.count h = 1)
    (hpat : patternOf w.st h = some P) :
    ∃ st', dropHandle w.st h = some st' ∧
      poolFind st' P = none ∧
      st'.pool.length + 1 = w.st.pool.length ∧
      ∃ st'', fromStr st' P = some (Except.ok st'.heap.length, st'') ∧
        getArc st' st'.heap.length = none ∧
        st''.compiles = st'.compiles + 1 ∧
        st''.pool.length = w.st.pool.length := by
  have hpm : h ∈ w.st.pool := hwf.2.2.2.2.1 h hmem
  obtain ⟨a, hga, hwk, hstr, hbl⟩ := hwf.2.2.1 h hpm
  have hap : a.pattern = P := by
    rw [patternOf, hga] at hpat
    simpa using hpat
  have hb : buildRegex P.toList = some a.matcher := by
    rw [← hap]
    exact hbl
  have hd := drop_last_spec hwf hmem hcount
  have hwf2 : WF ⟨⟨w.st.heap.set h none, w.st.pool.erase h, false, w.st.compiles⟩,
      w.hs.erase h⟩ := wf_drop_last hwf hmem hcount
  have hnf : poolFind (⟨w.st.heap.set h none, w.st.pool.erase h, false,
      w.st.compiles⟩ : PoolState) P = none := by
    rw [poolFind_none_iff]
    intro j hj hpj
    obtain ⟨hjh, hjp⟩ := (hwf.2.1.mem_erase_iff).mp hj
    have hpj' : patternOf w.st j = some P := by
      rw [← hpj]
      symm
      exact patternOf_congr (getArc_setlit_ne _ hjh)
    exact hjh (hwf.2.2.2.1 j hjp h hpm (by rw [hpj', hpat]))
  have hlen : (w.st.pool.erase h).length + 1 = w.st.pool.length := by
    rw [List.length_erase, if_pos hpm]
    have := List.length_pos_of_mem hpm
    omega
  have hms := fromStr_miss_spec (w := ⟨⟨w.st.heap.set h none, w.st.pool.erase h, false,
      w.st.compiles⟩, w.hs.erase h⟩) hwf2 hb hnf
  refine ⟨_, hd, hnf, hlen, _, hms, getArc_ge_length (Nat.le_refl _), rfl, ?_⟩
  show ((w.st.pool.erase h) ++ [_]).length = w.st.pool.length
  rw [List.length_append]
  simp only [List.length_singleton]
  omega

theorem claim2_reclamation_witness :
    ∃ st', dropHandle (⟨[some ⟨"abc", ⟨false, [97, 98, 99]⟩, 2, 0⟩], [0], false, 1⟩ : PoolState)
        0 = some st' ∧
      poolFind st' "abc" = none ∧
      st'.pool.length + 1 = 1 ∧
      ∃ st'', fromStr st' "abc" = some (Except.ok st'.heap.length, st'') ∧
        getArc st' st'.heap.length = none ∧
        st''.compiles = st'.compiles + 1 ∧
        st''.pool.length = 1 :=
  @claim2_reclamation
    ⟨⟨[some ⟨"abc", ⟨false, [97, 98, 99]⟩, 2, 0⟩], [0], false, 1⟩, [0]⟩ 0 "abc"
    (by decide) (by decide) (by decide) (by decide)

/-- Claim C3: on the last-owner release the departing handle sees strong
count exactly 2 and weak count 0; the registry entry is removed exactly once
(the pool holds the id once before, zero times after); and the re-entrant
release of the pool own stored handle — which observes the transient weak
marker taken before removal — performs no registry interaction and succeeds
even while the lock is still held (it never re-acquires the lock within the
same release chain). -/
theorem claim3_reentrant_release {w : World} {h : Nat} {a : ArcState}
    (hwf : WF w) (hmem : h ∈ w.hs) (hcount : w.hs.count h = 1)
    (hga : getArc w.st h = some a) :
    a.strong = 2 ∧ a.weak = 0 ∧
    w.st.pool.count h = 1 ∧
    (∀ st', dropHandle w.st h = some st' → st'.pool.count h = 0) ∧
    (∀ st2 : PoolState, st2.locked = true →
      getArc st2 h = some { a with weak := a.weak + 1 } →
      dropFuel 1 st2 h = some (arcDec st2 h) ∧
      (arcDec st2 h).pool = st2.pool ∧
      (arcDec st2 h).locked = true) := by
  have hpm : h ∈ w.st.pool := hwf.2.2.2.2.1 h hmem
  obtain ⟨a0, hga0, hwk, hstr, hbl⟩ := hwf.2.2.1 h hpm
  have ha0 : a0 = a := by
    rw [hga0] at hga
    exact Option.some.inj hga
  subst ha0
  have hs2 : a0.strong = 2 := by rw [hstr, hcount]
  have hcp : w.st.pool.count h = 1 := List.count_eq_one_of_mem hwf.2.1 hpm
  refine ⟨hs2, hwk, hcp, ?_, ?_⟩
  · intro st' hst'
    have hd := drop_last_spec hwf hmem hcount
    rw [show dropHandle w.st h = dropFuel 2 w.st h from rfl, hd] at hst'
    obtain rfl := Option.some.inj hst'
    show (w.st.pool.erase h).count h = 0
    rw [List.count_erase_self, hcp]
  · intro st2 hlk2 hga2
    have hC : (({ a0 with weak := a0.weak + 1 } : ArcState).strong == 2 &&
        ({ a0 with weak := a0.weak + 1 } : ArcState).weak == 0) = false := by
      simp
    have hp := dropFuel_plain (n := 0) hga2 hC
    exact ⟨hp, arcDec_pool st2 h, by rw [arcDec_locked st2 h, hlk2]⟩

theorem claim3_reentrant_release_witness :
    (2 : Nat) = 2 ∧ (0 : Nat) = 0 ∧
    ([0] : List Nat).count 0 = 1 ∧
    (∀ st', dropHandle (⟨[some ⟨"abc", ⟨false, [97, 98, 99]⟩, 2, 0⟩], [0], false,
        1⟩ : PoolState) 0 = some st' → st'.pool.count 0 = 0) ∧
    (∀ st2 : PoolState, st2.locked = true →
      getArc st2 0 = some ⟨"abc", ⟨false, [97, 98, 99]⟩, 2, 0 + 1⟩ →
      dropFuel 1 st2 0 = some (arcDec st2 0) ∧
      (arcDec st2 0).pool = st2.pool ∧
      (arcDec st2 0).locked = true) :=
  @claim3_reentrant_release
    ⟨⟨[some ⟨"abc", ⟨false, [97, 98, 99]⟩, 2, 0⟩], [0], false, 1⟩, [0]⟩ 0
    ⟨"abc", ⟨false, [97, 98, 99]⟩, 2, 0⟩
    (by decide) (by decide) (by decide) (by decide)

/-- Claim C7: for distinct valid pattern texts P1 and P2, consecutive parses
return handles that never share a `CompiledMatcher` (distinct arc ids whose
stored patterns are P1 and P2 respectively), and the registry keeps at most
one entry per distinct pattern text (entries are identified by pattern text
alone). -/
theorem claim7_distinctness {w : World} {P1 P2 : String} {i1 i2 : Nat}
    {st1 st2 : PoolState}
    (hwf : WF w) (hne : P1 ≠ P2)
    (h1 : fromStr w.st P1 = some (Except.ok i1, st1))
    (h2 : fromStr st1 P2 = some (Except.ok i2, st2)) :
    i1 ≠ i2 ∧ patternOf st2 i1 = some P1 ∧ patternOf st2 i2 = some P2 ∧
    (∀ j1 ∈ st2.pool, ∀ j2 ∈ st2.pool, patternOf st2 j1 = patternOf st2 j2 → j1 = j2) := by
  have hstep1 := step_parse_ok h1
  have hwf1 : WF ⟨st1, w.hs ++ [i1]⟩ := wf_step hwf hstep1
  have h2' : fromStr (⟨st1, w.hs ++ [i1]⟩ : World).st P2 = some (Except.ok i2, st2) := h2
  have hstep2 := step_parse_ok h2'
  have hwf2 : WF ⟨st2, (w.hs ++ [i1]) ++ [i2]⟩ := wf_step hwf1 hstep2
  have hp2 : patternOf st2 i2 = some P2 := fromStr_ok_pattern hwf1 h2'
  have hp1' : patternOf st1 i1 = some P1 := fromStr_ok_pattern hwf h1
  have hi1mem : i1 ∈ w.hs ++ [i1] := List.mem_append.mpr (Or.inr (List.mem_singleton.mpr rfl))
  have hi1pool : i1 ∈ st1.pool := hwf1.2.2.2.2.1 i1 hi1mem
  have hp1 : patternOf st2 i1 = some P1 := by
    rw [fromStr_pattern_frame hwf1 h2' i1 hi1pool]
    exact hp1'
  refine ⟨?_, hp1, hp2, hwf2.2.2.2.1⟩
  intro e
  rw [← e] at hp2
  rw [hp1] at hp2
  exact hne (Option.some.inj hp2)

theorem claim7_distinctness_witness :
    (0 : Nat) ≠ 1 ∧
    patternOf (⟨[some ⟨"abc", ⟨false, [97, 98, 99]⟩, 2, 0⟩,
      some ⟨"x", ⟨false, [120]⟩, 2, 0⟩], [0, 1], false, 2⟩ : PoolState) 0 = some "abc" ∧
    patternOf (⟨[some ⟨"abc", ⟨false, [97, 98, 99]⟩, 2, 0⟩,
      some ⟨"x", ⟨false, [120]⟩, 2, 0⟩], [0, 1], false, 2⟩ : PoolState) 1 = some "x" ∧
    (∀ j1 ∈ ([0, 1] : List Nat), ∀ j2 ∈ ([0, 1] : List Nat),
      patternOf (⟨[some ⟨"abc", ⟨false, [97, 98, 99]⟩, 2, 0⟩,
        some ⟨"x", ⟨false, [120]⟩, 2, 0⟩], [0, 1], false, 2⟩ : PoolState) j1 =
      patternOf (⟨[some ⟨"abc", ⟨false, [97, 98, 99]⟩, 2, 0⟩,
        some ⟨"x", ⟨false, [120]⟩, 2, 0⟩], [0, 1], false, 2⟩ : PoolState) j2 → j1 = j2) :=
  @claim7_distinctness initWorld "abc" "x" 0 1
    ⟨[some ⟨"abc", ⟨false, [97, 98, 99]⟩, 2, 0⟩], [0], false, 1⟩
    ⟨[some ⟨"abc", ⟨false, [97, 98, 99]⟩, 2, 0⟩,
      some ⟨"x", ⟨false, [120]⟩, 2, 0⟩], [0, 1], false, 2⟩
    (by decide) (by decide) rfl rfl

/-- Claim C9: under any serialization of concurrently issued operations no
deadlock occurs (every operation list runs to completion, in particular any
set of last-handle releases for distinct patterns in any order), and N
concurrent `parse(P)` calls for the same valid P all succeed and converge to
one shared `CompiledMatcher`: the run returns a world whose handle list
gained N copies of a single arc id, with the lock free at the end. -/
theorem claim9_concurrency_safety {w : World} (hwf : WF w) :
    (∀ ops : List Op, (runOps w ops).isSome) ∧
    (∀ (P : String) (m : Matcher), buildRegex P.toList = some m →
      ∀ n : Nat, ∃ w' i, runOps w (List.replicate (n + 1) (Op.parse P)) = some w' ∧
        WF w' ∧ w'.st.locked = false ∧ w'.hs = w.hs ++ List.replicate (n + 1) i) := by
  refine ⟨runOps_isSome hwf, ?_⟩
  intro P m hb n
  obtain ⟨i, st', heq⟩ := fromStr_valid_ok hwf hb
  have hstep := step_parse_ok heq
  have hwf1 := wf_step hwf hstep
  have hmem1 : i ∈ w.hs ++ [i] := List.mem_append.mpr (Or.inr (List.mem_singleton.mpr rfl))
  have hpat1 : patternOf st' i = some P := fromStr_ok_pattern hwf heq
  obtain ⟨w', hrun, hwf', hhs, hpat'⟩ :=
    parse_replicate_stable n ⟨st', w.hs ++ [i]⟩ hwf1 hmem1 hpat1
  refine ⟨w', i, ?_, hwf', hwf'.1, ?_⟩
  · rw [List.replicate_succ, runOps, hstep]
    exact hrun
  · rw [hhs]
    simp [List.replicate_succ]

theorem claim9_concurrency_safety_witness :
    (∀ ops : List Op, (runOps initWorld ops).isSome) ∧
    (∀ (P : String) (m : Matcher), buildRegex P.toList = some m →
      ∀ n : Nat, ∃ w' i, runOps initWorld (List.replicate (n + 1) (Op.parse P)) = some w' ∧
        WF w' ∧ w'.st.locked = false ∧ w'.hs = [] ++ List.replicate (n + 1) i) :=
  @claim9_concurrency_safety initWorld (by decide)

end ImpPool
